import Mathlib

/-!
Verification of the OpenFoodFacts RAW collector (src/collector/main.py).

The development embeds the collector shallowly:
* `canonical_json` and `sha256_hex` model the content-fingerprint pipeline
  (json.dumps with sorted keys and "," ":" separators, then SHA-256 of the
  UTF-8 bytes, rendered as lowercase hex).
* `insert_raw` models the Mongo RAW repository insert against a store with a
  unique index on `raw_hash`.
* `off_search` models the page fetch of the OpenFoodFacts search endpoint,
  applied to the HTTP response left after the session retry policy.
* `procRecords` / `loopFuel` / `runCollector` / `collectorMain` model the
  control loop of `main`, driven by a script assigning to every page cursor
  the outcome of its fetch.
-/

namespace Collector

/-! ### SHA-256 over natural numbers

Faithful model of hashlib.sha256 on UTF-8 input, all words kept as `Nat`
reduced modulo 2^32. -/

/-- Truncate to a 32-bit word. -/
def w32 (n : Nat) : Nat := n % 4294967296

/-- Rotate a 32-bit word right by `n`. -/
def rotr (x n : Nat) : Nat := w32 (x >>> n ||| x <<< (32 - n))

/-- UTF-8 encoding of one character, as its list of bytes. -/
def utf8Char (c : Char) : List Nat :=
  let n := c.toNat
  if n < 128 then [n]
  else if n < 2048 then [192 ||| (n >>> 6), 128 ||| (n &&& 63)]
  else if n < 65536 then [224 ||| (n >>> 12), 128 ||| ((n >>> 6) &&& 63), 128 ||| (n &&& 63)]
  else [240 ||| (n >>> 18), 128 ||| ((n >>> 12) &&& 63), 128 ||| ((n >>> 6) &&& 63),
        128 ||| (n &&& 63)]

/-- UTF-8 bytes of a string, modelling `text.encode("utf-8")`. -/
def utf8Bytes (s : String) : List Nat := s.data.flatMap utf8Char

/-- The 64 SHA-256 round constants. -/
def sha256K : List Nat :=
  [1116352408, 1899447441, 3049323471, 3921009573, 961987163,
   1508970993, 2453635748, 2870763221, 3624381080, 310598401,
   607225278, 1426881987, 1925078388, 2162078206, 2614888103,
   3248222580, 3835390401, 4022224774, 264347078, 604807628,
   770255983, 1249150122, 1555081692, 1996064986, 2554220882,
   2821834349, 2952996808, 3210313671, 3336571891, 3584528711,
   113926993, 338241895, 666307205, 773529912, 1294757372,
   1396182291, 1695183700, 1986661051, 2177026350, 2456956037,
   2730485921, 2820302411, 3259730800, 3345764771, 3516065817,
   3600352804, 4094571909, 275423344, 430227734, 506948616,
   659060556, 883997877, 958139571, 1322822218, 1537002063,
   1747873779, 1955562222, 2024104815, 2227730452, 2361852424,
   2428436474, 2756734187, 3204031479, 3329325298]

/-- SHA-256 padding: append 0x80, zeros, and the 64-bit big-endian bit length. -/
def sha256Pad (msg : List Nat) : List Nat :=
  let len := msg.length
  let bitLen := 8 * len
  let zeros := (119 - len % 64) % 64
  msg ++ [128] ++ List.replicate zeros 0 ++
    [(bitLen >>> 56) % 256, (bitLen >>> 48) % 256, (bitLen >>> 40) % 256, (bitLen >>> 32) % 256,
     (bitLen >>> 24) % 256, (bitLen >>> 16) % 256, (bitLen >>> 8) % 256, bitLen % 256]

/-- Big-endian grouping of bytes into 32-bit words. -/
def bytesToWords : List Nat → List Nat
  | b0 :: b1 :: b2 :: b3 :: rest => (((b0 <<< 8 ||| b1) <<< 8 ||| b2) <<< 8 ||| b3) :: bytesToWords rest
  | _ => []

/-- SHA-256 sigma-0 schedule function. -/
def smallSigma0 (x : Nat) : Nat := rotr x 7 ^^^ rotr x 18 ^^^ (x >>> 3)

/-- SHA-256 sigma-1 schedule function. -/
def smallSigma1 (x : Nat) : Nat := rotr x 17 ^^^ rotr x 19 ^^^ (x >>> 10)

/-- SHA-256 Sigma-0 compression function. -/
def bigSigma0 (x : Nat) : Nat := rotr x 2 ^^^ rotr x 13 ^^^ rotr x 22

/-- SHA-256 Sigma-1 compression function. -/
def bigSigma1 (x : Nat) : Nat := rotr x 6 ^^^ rotr x 11 ^^^ rotr x 25

/-- SHA-256 choice function; the complement is taken inside 32 bits. -/
def chf (x y z : Nat) : Nat := (x &&& y) ^^^ ((x ^^^ 4294967295) &&& z)

/-- SHA-256 majority function. -/
def majf (x y z : Nat) : Nat := (x &&& y) ^^^ (x &&& z) ^^^ (y &&& z)

/-- Extend the 16 chunk words to the 64 schedule words; `acc` holds the
schedule built so far in reverse. -/
def extendWords : Nat → List Nat → List Nat
  | 0, acc => acc.reverse
  | n + 1, acc =>
    let w := w32 (acc.getD 15 0 + smallSigma0 (acc.getD 14 0) + acc.getD 6 0 +
      smallSigma1 (acc.getD 1 0))
    extendWords n (w :: acc)

/-- The eight 32-bit working variables of SHA-256. -/
structure H8 where
  a : Nat
  b : Nat
  c : Nat
  d : Nat
  e : Nat
  f : Nat
  g : Nat
  hh : Nat
deriving DecidableEq

/-- One pass of the 64 compression rounds over paired constants and
schedule words. -/
def sha256Rounds : List (Nat × Nat) → H8 → H8
  | [], s => s
  | (k, w) :: rest, s =>
    let t1 := w32 (s.hh + bigSigma1 s.e + chf s.e s.f s.g + k + w)
    let t2 := w32 (bigSigma0 s.a + majf s.a s.b s.c)
    sha256Rounds rest ⟨w32 (t1 + t2), s.a, s.b, s.c, w32 (s.d + t1), s.e, s.f, s.g⟩

/-- Pointwise 32-bit addition of two states. -/
def add8 (x y : H8) : H8 :=
  ⟨w32 (x.a + y.a), w32 (x.b + y.b), w32 (x.c + y.c), w32 (x.d + y.d),
   w32 (x.e + y.e), w32 (x.f + y.f), w32 (x.g + y.g), w32 (x.hh + y.hh)⟩

/-- Process the padded message 64 bytes at a time; the fuel bounds the number
of chunks and is always supplied large enough. -/
def sha256Chunks : Nat → List Nat → H8 → H8
  | 0, _, st => st
  | fuel + 1, bytes, st =>
    match bytes with
    | [] => st
    | _ =>
      let ws := extendWords 48 (bytesToWords (bytes.take 64)).reverse
      sha256Chunks fuel (bytes.drop 64) (add8 st (sha256Rounds (sha256K.zip ws) st))

/-- The SHA-256 initial hash value. -/
def sha256Init : H8 :=
  ⟨1779033703, 3144134277, 1013904242, 2773480762,
   1359893119, 2600822924, 528734635, 1541459225⟩

/-- Lowercase hexadecimal digit. -/
def hexDigit (n : Nat) : Char := if n < 10 then Char.ofNat (48 + n) else Char.ofNat (87 + n)

/-- Eight lowercase hex digits of a 32-bit word, most significant first. -/
def toHex8 (n : Nat) : String :=
  String.mk ((List.range 8).map (fun i => hexDigit ((n >>> (28 - 4 * i)) &&& 15)))

/-- Model of `sha256_hex`: hexdigest of the SHA-256 of the UTF-8 bytes. -/
def sha256_hex (text : String) : String :=
  let padded := sha256Pad (utf8Bytes text)
  let st := sha256Chunks (padded.length / 64 + 1) padded sha256Init
  toHex8 st.a ++ toHex8 st.b ++ toHex8 st.c ++ toHex8 st.d ++
    toHex8 st.e ++ toHex8 st.f ++ toHex8 st.g ++ toHex8 st.hh

/-! ### JSON payloads

`Json` models the structured values the collector receives from `resp.json()`;
`JArr` and `JObj` are the spines of arrays and objects, kept as mutual
inductives so that every function below is structurally recursive. -/

mutual

inductive Json where
  | null
  | bool (b : Bool)
  | num (n : Int)
  | str (s : String)
  | arr (xs : JArr)
  | obj (es : JObj)

inductive JArr where
  | nil
  | cons (hd : Json) (tl : JArr)

inductive JObj where
  | nil
  | cons (k : String) (v : Json) (tl : JObj)

end

/-- The elements of an array spine as a list. -/
def JArr.toList : JArr → List Json
  | .nil => []
  | .cons x xs => x :: xs.toList

/-- The entries of an object spine as an association list. -/
def JObj.toList : JObj → List (String × Json)
  | .nil => []
  | .cons k v es => (k, v) :: es.toList

/-- The keys of an object spine, in order. -/
def JObj.keys : JObj → List String
  | .nil => []
  | .cons k _ es => k :: es.keys

/-- First value stored under a key, modelling dict lookup. -/
def JObj.lookup : JObj → String → Option Json
  | .nil, _ => none
  | .cons k v es, key => if k = key then some v else es.lookup key

/-- Whether the value is a JSON object, modelling `isinstance(p, dict)`. -/
def Json.isObj : Json → Bool
  | .obj _ => true
  | _ => false

/-! ### Code-point string order

Python compares strings lexicographically by code point; `charsLt` is that
strict order on the underlying character lists, and `keyLe` the derived total
order used to sort object keys. -/

/-- Strict code-point lexicographic order. -/
def charsLt : List Char → List Char → Bool
  | _, [] => false
  | [], _ :: _ => true
  | c :: cs, d :: ds => decide (c < d) || (decide (c = d) && charsLt cs ds)

/-- Non-strict key order on (key, rendered value) pairs. -/
def keyLe (a b : String × String) : Prop := charsLt b.1.data a.1.data = false

instance : DecidableRel keyLe := fun a b =>
  inferInstanceAs (Decidable (charsLt b.1.data a.1.data = false))

/-- Strict key order on (key, rendered value) pairs. -/
def keyLt (a b : String × String) : Prop := charsLt a.1.data b.1.data = true

/-- Sorting object entries by key, modelling the sorted iteration of
`json.dumps(..., sort_keys=True)`. -/
def sortPairs (l : List (String × String)) : List (String × String) :=
  l.insertionSort keyLe

/-! ### Canonical JSON serialization

Model of `json.dumps(obj, ensure_ascii=False, sort_keys=True,
separators=(",", ":"))`. -/

/-- Escape of one character inside a JSON string literal, as produced by
json.dumps with ensure_ascii=False. -/
def escChar (c : Char) : String :=
  if c = '"' then "\\\""
  else if c = '\\' then "\\\\"
  else if c = '\n' then "\\n"
  else if c = '\r' then "\\r"
  else if c = '\t' then "\\t"
  else if c.toNat = 8 then "\\b"
  else if c.toNat = 12 then "\\f"
  else if c.toNat < 32 then "\\u00" ++ String.mk [hexDigit (c.toNat / 16), hexDigit (c.toNat % 16)]
  else String.singleton c

/-- JSON string literal with its quotes. -/
def jstr (s : String) : String := "\"" ++ String.join (s.data.map escChar) ++ "\""

mutual

/-- Canonical serialization: keys sorted, separators "," and ":", no spaces. -/
def canonical_json : Json → String
  | .null => "null"
  | .bool b => cond b "true" "false"
  | .num n => toString n
  | .str s => jstr s
  | .arr xs => "[" ++ String.intercalate "," (canonArr xs) ++ "]"
  | .obj es => "\x7b" ++ String.intercalate ","
      ((sortPairs (canonObj es)).map (fun e => jstr e.1 ++ ":" ++ e.2)) ++ "\x7d"

/-- Serializations of the elements of an array spine. -/
def canonArr : JArr → List String
  | .nil => []
  | .cons x xs => canonical_json x :: canonArr xs

/-- Entries of an object spine paired with the serialization of their value. -/
def canonObj : JObj → List (String × String)
  | .nil => []
  | .cons k v es => (k, canonical_json v) :: canonObj es

end

/-- Content fingerprint of a payload: `sha256_hex` of its `canonical_json`,
exactly as computed inside `insert_raw`. -/
def fingerprint (payload : Json) : String := sha256_hex (canonical_json payload)

/-! ### Properties of the key order -/

theorem charsLt_irrefl : ∀ l : List Char, charsLt l l = false := by
  intro l
  induction l with
  | nil => rfl
  | cons c cs ih => simp [charsLt, ih]

theorem charsLt_trans :
    ∀ a b c : List Char, charsLt a b = true → charsLt b c = true → charsLt a c = true := by
  intro a
  induction a with
  | nil =>
    intro b c h1 h2
    cases c with
    | nil => cases b <;> simp [charsLt] at h1 h2
    | cons d ds => simp [charsLt]
  | cons x xs ih =>
    intro b c h1 h2
    cases b with
    | nil => simp [charsLt] at h1
    | cons y ys =>
      cases c with
      | nil => simp [charsLt] at h2
      | cons z zs =>
        simp only [charsLt, Bool.or_eq_true, Bool.and_eq_true, decide_eq_true_eq] at h1 h2 ⊢
        rcases h1 with hxy | ⟨hxy, hrec1⟩
        · rcases h2 with hyz | ⟨hyz, _⟩
          · exact Or.inl (lt_trans hxy hyz)
          · exact Or.inl (hyz ▸ hxy)
        · rcases h2 with hyz | ⟨hyz, hrec2⟩
          · exact Or.inl (hxy ▸ hyz)
          · exact Or.inr ⟨hxy.trans hyz, ih ys zs hrec1 hrec2⟩

theorem charsLt_eq_of_not :
    ∀ a b : List Char, charsLt a b = false → charsLt b a = false → a = b := by
  intro a
  induction a with
  | nil =>
    intro b h1 _
    cases b with
    | nil => rfl
    | cons d ds => simp [charsLt] at h1
  | cons x xs ih =>
    intro b h1 h2
    cases b with
    | nil => simp [charsLt] at h2
    | cons y ys =>
      simp only [charsLt, Bool.or_eq_false_iff, Bool.and_eq_false_iff,
        decide_eq_false_iff_not] at h1 h2
      obtain ⟨hnlt1, hd1⟩ := h1
      obtain ⟨hnlt2, hd2⟩ := h2
      have hxy : x = y := le_antisymm (not_lt.mp hnlt2) (not_lt.mp hnlt1)
      subst hxy
      rcases hd1 with h | h
      · exact absurd rfl h
      · rcases hd2 with h' | h'
        · exact absurd rfl h'
        · rw [ih ys h h']

instance : IsTotal (String × String) keyLe where
  total a b := by
    unfold keyLe
    by_contra hc
    push_neg at hc
    obtain ⟨h1, h2⟩ := hc
    simp only [ne_eq, Bool.not_eq_false] at h1 h2
    have := charsLt_trans _ _ _ h1 h2
    rw [charsLt_irrefl] at this
    exact Bool.noConfusion this

instance : IsTrans (String × String) keyLe where
  trans a b c h1 h2 := by
    unfold keyLe at h1 h2 ⊢
    by_contra hc
    rw [Bool.not_eq_false] at hc
    cases hab : charsLt a.1.data b.1.data with
    | true =>
      have := charsLt_trans _ _ _ hc hab
      rw [h2] at this
      exact Bool.noConfusion this
    | false =>
      have hab' : a.1.data = b.1.data := charsLt_eq_of_not _ _ hab h1
      rw [hab'] at hc
      rw [h2] at hc
      exact Bool.noConfusion hc

instance : IsAntisymm (String × String) keyLt where
  antisymm a b h1 h2 := by
    unfold keyLt at h1 h2
    have := charsLt_trans _ _ _ h1 h2
    rw [charsLt_irrefl] at this
    exact Bool.noConfusion this

theorem sortPairs_perm (l : List (String × String)) : (sortPairs l).Perm l :=
  List.perm_insertionSort keyLe l

theorem sortPairs_sorted (l : List (String × String)) : List.Sorted keyLe (sortPairs l) :=
  List.sorted_insertionSort keyLe l

theorem pairwise_keyLt_of_sorted_nodup {l : List (String × String)}
    (hs : List.Sorted keyLe l) (hn : (l.map Prod.fst).Nodup) : List.Sorted keyLt l := by
  have hne : List.Pairwise (fun a b : String × String => a.1 ≠ b.1) l :=
    List.pairwise_map.mp hn
  refine (hs.and hne).imp ?_
  rintro a b ⟨hle, hne'⟩
  unfold keyLe at hle
  unfold keyLt
  cases hab : charsLt a.1.data b.1.data with
  | true => rfl
  | false =>
    have : a.1.data = b.1.data := charsLt_eq_of_not _ _ hab hle
    exact absurd (String.ext this) hne'

/-- Sorting by key is invariant under permutation when the keys are
duplicate-free. -/
theorem sortPairs_congr {l₁ l₂ : List (String × String)}
    (hp : l₁.Perm l₂) (hn : (l₁.map Prod.fst).Nodup) : sortPairs l₁ = sortPairs l₂ := by
  have hn₂ : (l₂.map Prod.fst).Nodup := (hp.map Prod.fst).nodup hn
  have hn₁' : ((sortPairs l₁).map Prod.fst).Nodup :=
    (((sortPairs_perm l₁).map Prod.fst).nodup_iff).mpr hn
  have hn₂' : ((sortPairs l₂).map Prod.fst).Nodup :=
    (((sortPairs_perm l₂).map Prod.fst).nodup_iff).mpr hn₂
  exact List.eq_of_perm_of_sorted
    (((sortPairs_perm l₁).trans hp).trans (sortPairs_perm l₂).symm)
    (pairwise_keyLt_of_sorted_nodup (sortPairs_sorted l₁) hn₁')
    (pairwise_keyLt_of_sorted_nodup (sortPairs_sorted l₂) hn₂')

/-! ### Well-formed payloads and key-order equivalence -/

/-- Duplicate-freedom of a key list, as a boolean. -/
def noDupKeys : List String → Bool
  | [] => true
  | k :: ks => !(ks.contains k) && noDupKeys ks

theorem noDupKeys_iff : ∀ l : List String, noDupKeys l = true ↔ l.Nodup := by
  intro l
  induction l with
  | nil => simp [noDupKeys]
  | cons k ks ih => simp [noDupKeys, ih]

mutual

/-- Well-formedness: every object in the payload has duplicate-free keys.
Payloads received from Python dicts always satisfy this. -/
def wfKeys : Json → Bool
  | .null => true
  | .bool _ => true
  | .num _ => true
  | .str _ => true
  | .arr xs => wfArr xs
  | .obj es => noDupKeys es.keys && wfObj es

/-- Well-formedness of every element of an array spine. -/
def wfArr : JArr → Bool
  | .nil => true
  | .cons x xs => wfKeys x && wfArr xs

/-- Well-formedness of every value of an object spine. -/
def wfObj : JObj → Bool
  | .nil => true
  | .cons _ v es => wfKeys v && wfObj es

end

mutual

/-- Two payloads are structurally equal up to reordering of object keys, at
any nesting level. -/
inductive KeyPerm : Json → Json → Prop
  | null : KeyPerm .null .null
  | bool (b : Bool) : KeyPerm (.bool b) (.bool b)
  | num (n : Int) : KeyPerm (.num n) (.num n)
  | str (s : String) : KeyPerm (.str s) (.str s)
  | arr {xs ys : JArr} : KeyPermArr xs ys → KeyPerm (.arr xs) (.arr ys)
  | obj {es ms ys : JObj} : KeyPermObj es ms → (JObj.toList ms).Perm (JObj.toList ys) →
      KeyPerm (.obj es) (.obj ys)

/-- Elementwise key-order equivalence of array spines. -/
inductive KeyPermArr : JArr → JArr → Prop
  | nil : KeyPermArr .nil .nil
  | cons {x y : Json} {xs ys : JArr} : KeyPerm x y → KeyPermArr xs ys →
      KeyPermArr (.cons x xs) (.cons y ys)

/-- Entrywise key-order equivalence of object spines: same keys in the same
order, values equivalent. -/
inductive KeyPermObj : JObj → JObj → Prop
  | nil : KeyPermObj .nil .nil
  | cons (k : String) {v v' : Json} {es es' : JObj} : KeyPerm v v' → KeyPermObj es es' →
      KeyPermObj (.cons k v es) (.cons k v' es')

end

theorem canonObj_eq_map :
    ∀ es : JObj, canonObj es = es.toList.map (fun e => (e.1, canonical_json e.2))
  | .nil => rfl
  | .cons k v tl => by simp [canonObj, JObj.toList, canonObj_eq_map tl]

theorem canonObj_keys : ∀ es : JObj, (canonObj es).map Prod.fst = es.keys
  | .nil => rfl
  | .cons k v tl => by simp [canonObj, JObj.keys, canonObj_keys tl]

mutual

/-- Canonical serialization is invariant under reordering of duplicate-free
object keys. -/
theorem canon_keyPerm : ∀ (p : Json) {q : Json}, KeyPerm p q → wfKeys p = true →
    canonical_json p = canonical_json q
  | .null, q, h, _ => by cases h; rfl
  | .bool b, q, h, _ => by cases h; rfl
  | .num n, q, h, _ => by cases h; rfl
  | .str s, q, h, _ => by cases h; rfl
  | .arr xs, q, h, hw => by
    cases h with
    | arr ha =>
      simp only [canonical_json]
      rw [canonArr_keyPerm xs ha (by simpa [wfKeys] using hw)]
  | .obj es, q, h, hw => by
    cases h with
    | obj hobj hperm =>
      rename_i ms ys
      simp only [wfKeys, Bool.and_eq_true] at hw
      have hmap : canonObj es = canonObj ms := canonObj_keyPerm es hobj hw.2
      have hp2 : (canonObj ms).Perm (canonObj ys) := by
        rw [canonObj_eq_map ms, canonObj_eq_map ys]
        exact hperm.map _
      have hnod : ((canonObj es).map Prod.fst).Nodup := by
        rw [canonObj_keys]
        exact (noDupKeys_iff _).mp hw.1
      simp only [canonical_json]
      rw [sortPairs_congr (hmap ▸ hp2) hnod]

/-- Elementwise version of `canon_keyPerm` for array spines. -/
theorem canonArr_keyPerm : ∀ (xs : JArr) {ys : JArr}, KeyPermArr xs ys → wfArr xs = true →
    canonArr xs = canonArr ys
  | .nil, ys, h, _ => by cases h; rfl
  | .cons x xs, ys, h, hw => by
    cases h with
    | cons hx hxs =>
      simp only [wfArr, Bool.and_eq_true] at hw
      simp only [canonArr]
      rw [canon_keyPerm x hx hw.1, canonArr_keyPerm xs hxs hw.2]

/-- Entrywise version of `canon_keyPerm` for object spines. -/
theorem canonObj_keyPerm : ∀ (es : JObj) {ms : JObj}, KeyPermObj es ms → wfObj es = true →
    canonObj es = canonObj ms
  | .nil, ms, h, _ => by cases h; rfl
  | .cons k v es, ms, h, hw => by
    cases h with
    | cons _ hv hes =>
      simp only [wfObj, Bool.and_eq_true] at hw
      simp only [canonObj]
      rw [canon_keyPerm v hv hw.1, canonObj_keyPerm es hes hw.2]

end

/-! ### The Fetcher: `off_search`

The session retry policy is external to `off_search`; the model therefore
takes the HTTP response left after retries are exhausted. `text` is the raw
body and `body` its JSON parse (`none` when the body is not JSON, in which
case `resp.json()` raises). -/

/-- An HTTP response as seen by `off_search` after the retry adapter. -/
structure Response where
  status : Nat
  text : String
  body : Option Json

/-- The `products` field of the response body when it is a list; `none`
models every shape on which the source raises (no object body, missing key,
non-list value). -/
def getProducts : Option Json → Option (List Json)
  | some (.obj es) =>
    match es.lookup "products" with
    | some (.arr xs) => some xs.toList
    | _ => none
  | _ => none

/-- The first 200 characters of the body, modelling the slice `text[:200]`. -/
def excerpt (text : String) : String := String.mk (text.data.take 200)

/-- Model of `off_search`: raising becomes returning `.error` with the
message of the raised exception. -/
def off_search (resp : Response) : Except String (List Json) :=
  if resp.status ≠ 200 then
    .error ("OFF HTTP " ++ toString resp.status ++ ": " ++ excerpt resp.text)
  else
    match getProducts resp.body with
    | some products => .ok products
    | none => .error "OFF response missing \x27products\x27 list"

/-! ### The Sink: RAW store and `insert_raw`

The store is the RAW collection together with its unique index on
`raw_hash`: inserting a document whose `raw_hash` is already present raises
`DuplicateKeyError`; any other store-level failure raises a different
`PyMongoError`, modelled by the `fault` oracle bit. -/

/-- One persisted RAW document. -/
structure StoredDoc where
  source : String
  fetched_at : Nat
  raw_hash : String
  payload : Json

/-- A store-level error other than a duplicate-key rejection. -/
inductive SinkError where
  | pymongo

/-- Model of `insert_raw`: computes the fingerprint, then attempts
`insert_one` under the unique index on `raw_hash`. Returns `true` when
inserted, `false` on `DuplicateKeyError`; a transient store failure
(the `fault` bit) raises instead. `now` is the ingestion timestamp. -/
def insert_raw (fault : Bool) (store : List StoredDoc) (source : String) (now : Nat)
    (payload : Json) : Except SinkError (Bool × List StoredDoc) :=
  let raw_hash := sha256_hex (canonical_json payload)
  let doc : StoredDoc := ⟨source, now, raw_hash, payload⟩
  if fault then .error .pymongo
  else if store.any (fun d => d.raw_hash = raw_hash) then .ok (false, store)
  else .ok (true, store ++ [doc])

/-- At most one stored document per fingerprint: the uniqueness invariant of
the RAW collection. -/
def hashUnique (store : List StoredDoc) : Prop := (store.map (fun d => d.raw_hash)).Nodup

/-! ### The Controller loop -/

/-- One record of a fetched page, together with the store's behaviour when
this record is inserted (`sinkFault` models a transient `PyMongoError`). -/
structure RecEvent where
  payload : Json
  sinkFault : Bool

/-- Outcome of fetching one page: `fail` when `off_search` raises after the
retry budget, `ok` with the page's records otherwise. -/
inductive FetchOutcome where
  | fail
  | ok (records : List RecEvent)

/-- The run state: the four counters of `main`, the page cursor, the clock
driving `fetched_at`, the RAW store, and the list of page cursors actually
fetched (instrumentation recording each `off_search` call). -/
structure RState where
  inserted : Nat
  duplicates : Nat
  requested : Nat
  failed_pages : Nat
  page : Nat
  ticks : Nat
  store : List StoredDoc
  fetchedPages : List Nat

/-- The record loop of `main` over one fetched page: count the record, skip
non-objects, insert, count insert or duplicate, skip on sink error, and break
out as soon as `inserted` reaches the limit. -/
def procRecords (limit : Nat) : List RecEvent → RState → RState
  | [], st => st
  | ev :: rest, st =>
    let st1 := { st with requested := st.requested + 1 }
    if ev.payload.isObj = false then
      procRecords limit rest st1
    else
      match insert_raw ev.sinkFault st1.store "openfoodfacts" st1.ticks ev.payload with
      | .error _ => procRecords limit rest { st1 with ticks := st1.ticks + 1 }
      | .ok (ok, store1) =>
        let st2 :=
          if ok then
            { st1 with inserted := st1.inserted + 1, store := store1, ticks := st1.ticks + 1 }
          else
            { st1 with duplicates := st1.duplicates + 1, store := store1, ticks := st1.ticks + 1 }
        if limit ≤ st2.inserted then st2 else procRecords limit rest st2

/-- Collector configuration: the `--limit` insert target and the
`--max-pages` safety cap (`--page-size`, `--category-en` and `--sleep-ms`
shape the pages and the pacing but not the state transitions). -/
structure Args where
  limit : Nat
  max_pages : Nat

/-- The page loop of `main`: while the target is not reached and the cursor
is within the cap, fetch the page; on failure count it and move on; on an
empty page stop; otherwise process the records and advance. The fuel only
bounds recursion and is always supplied larger than the cap. -/
def loopFuel (a : Args) (script : Nat → FetchOutcome) : Nat → RState → RState
  | 0, st => st
  | fuel + 1, st =>
    if st.inserted < a.limit ∧ st.page ≤ a.max_pages then
      let st1 := { st with fetchedPages := st.fetchedPages ++ [st.page] }
      match script st.page with
      | .fail =>
        loopFuel a script fuel
          { st1 with failed_pages := st1.failed_pages + 1, page := st1.page + 1 }
      | .ok records =>
        if records.isEmpty then st1
        else
          let st2 := procRecords a.limit records st1
          loopFuel a script fuel { st2 with page := st2.page + 1 }
    else st

/-- The initial run state over a given starting store. -/
def initState (store0 : List StoredDoc) : RState :=
  ⟨0, 0, 0, 0, 1, 0, store0, []⟩

/-- A full collector run from a starting store. -/
def runCollector (a : Args) (script : Nat → FetchOutcome) (store0 : List StoredDoc) : RState :=
  loopFuel a script (a.max_pages + 1) (initState store0)

/-- Python whitespace, as removed by `str.strip()`. -/
def isPySpace (c : Char) : Bool :=
  c = ' ' || c = '\t' || c = '\n' || c = '\r' || c.toNat = 11 || c.toNat = 12

/-- Model of `str.strip()`: drop leading and trailing whitespace. -/
def pyStrip (s : String) : String :=
  String.mk (((s.data.dropWhile isPySpace).reverse.dropWhile isPySpace).reverse)

/-- Model of `main`: the missing `OFF_USER_AGENT` check (exit 2, before any
fetch), then the run and the final exit code (0 when the target was reached,
1 otherwise). -/
def collectorMain (userAgent : String) (a : Args) (script : Nat → FetchOutcome)
    (store0 : List StoredDoc) : Nat × RState :=
  if (pyStrip userAgent).data.isEmpty then (2, initState store0)
  else
    let fin := runCollector a script store0
    (if a.limit ≤ fin.inserted then 0 else 1, fin)


/-! ### Helper lemmas about the record loop -/

/-- The record loop leaves the page-level fields untouched. -/
theorem procRecords_frame (limit : Nat) : ∀ (evs : List RecEvent) (st : RState),
    (procRecords limit evs st).failed_pages = st.failed_pages ∧
    (procRecords limit evs st).page = st.page ∧
    (procRecords limit evs st).fetchedPages = st.fetchedPages := by
  intro evs
  induction evs with
  | nil => intro st; exact ⟨rfl, rfl, rfl⟩
  | cons ev rest ih =>
    intro st
    simp only [procRecords]
    split
    · exact ih _
    · cases hins : insert_raw ev.sinkFault { st with requested := st.requested + 1 }.store
        "openfoodfacts" { st with requested := st.requested + 1 }.ticks ev.payload with
      | error e => exact ih _
      | ok pr =>
        obtain ⟨ok, store1⟩ := pr
        cases ok with
        | true =>
          simp only [eq_self_iff_true, if_true]
          split
          · exact ⟨rfl, rfl, rfl⟩
          · exact ih _
        | false =>
          simp only [Bool.false_eq_true, if_false]
          split
          · exact ⟨rfl, rfl, rfl⟩
          · exact ih _

/-- Counter bookkeeping of the record loop: counters only grow, and the
growth of `inserted + duplicates` is bounded by the growth of `requested`. -/
theorem procRecords_counters (limit : Nat) : ∀ (evs : List RecEvent) (st : RState),
    st.inserted ≤ (procRecords limit evs st).inserted ∧
    st.duplicates ≤ (procRecords limit evs st).duplicates ∧
    st.requested ≤ (procRecords limit evs st).requested ∧
    (procRecords limit evs st).inserted + (procRecords limit evs st).duplicates + st.requested ≤
      st.inserted + st.duplicates + (procRecords limit evs st).requested := by
  intro evs
  induction evs with
  | nil => intro st; simp only [procRecords]; omega
  | cons ev rest ih =>
    intro st
    simp only [procRecords]
    split
    · have h := ih { st with requested := st.requested + 1 }
      dsimp only at h
      omega
    · cases hins : insert_raw ev.sinkFault { st with requested := st.requested + 1 }.store
        "openfoodfacts" { st with requested := st.requested + 1 }.ticks ev.payload with
      | error e =>
        have h := ih { st with requested := st.requested + 1, ticks := st.ticks + 1 }
        dsimp only at h ⊢
        omega
      | ok pr =>
        obtain ⟨ok, store1⟩ := pr
        cases ok with
        | true =>
          simp only [eq_self_iff_true, if_true]
          split
          · dsimp only; omega
          · have h := ih { st with requested := st.requested + 1, inserted := st.inserted + 1, store := store1, ticks := st.ticks + 1 }
            dsimp only at h
            omega
        | false =>
          simp only [Bool.false_eq_true, if_false]
          split
          · dsimp only; omega
          · have h := ih { st with requested := st.requested + 1, duplicates := st.duplicates + 1, store := store1, ticks := st.ticks + 1 }
            dsimp only at h
            omega

/-- The record loop never pushes `inserted` beyond the limit: it breaks as
soon as the limit is reached. -/
theorem procRecords_le_limit (limit : Nat) : ∀ (evs : List RecEvent) (st : RState),
    st.inserted < limit → (procRecords limit evs st).inserted ≤ limit := by
  intro evs
  induction evs with
  | nil => intro st h; exact Nat.le_of_lt h
  | cons ev rest ih =>
    intro st h
    simp only [procRecords]
    split
    · exact ih _ h
    · cases hins : insert_raw ev.sinkFault { st with requested := st.requested + 1 }.store
        "openfoodfacts" { st with requested := st.requested + 1 }.ticks ev.payload with
      | error e => exact ih _ h
      | ok pr =>
        obtain ⟨ok, store1⟩ := pr
        cases ok with
        | true =>
          simp only [eq_self_iff_true, if_true]
          split
          · exact h
          · rename_i hbreak
            exact ih _ (by dsimp only at hbreak ⊢; omega)
        | false =>
          simp only [Bool.false_eq_true, if_false]
          split
          · exact Nat.le_of_lt h
          · exact ih _ h

/-! ### Helper lemmas about the sink -/

/-- `insert_raw` preserves the uniqueness invariant of the store. -/
theorem insert_raw_hashUnique {fault : Bool} {store : List StoredDoc} {source : String}
    {now : Nat} {payload : Json} {b : Bool} {store1 : List StoredDoc}
    (h : insert_raw fault store source now payload = .ok (b, store1))
    (hu : hashUnique store) : hashUnique store1 := by
  simp only [insert_raw] at h
  split at h
  · exact Except.noConfusion h
  · split at h
    · injection h with h1
      injection h1 with hb hs
      exact hs ▸ hu
    · rename_i hany
      injection h with h1
      injection h1 with hb hs
      subst hs
      simp only [hashUnique, List.map_append, List.nodup_append] at hu ⊢
      refine ⟨hu, by simp, ?_⟩
      intro x hx hmem
      simp only [List.map_cons, List.map_nil, List.mem_singleton] at hmem
      subst hmem
      rw [Bool.not_eq_true, List.any_eq_false] at hany
      obtain ⟨d, hd, hdh⟩ := List.mem_map.mp hx
      exact absurd (by simpa using hdh) (by simpa using hany d hd)

/-- After any completed `insert_raw` of a payload, a second `insert_raw` of
the same payload is rejected as a duplicate and leaves the store unchanged. -/
theorem insert_raw_after (store : List StoredDoc) (source : String) (t1 t2 : Nat)
    (payload : Json) {b : Bool} {s1 : List StoredDoc}
    (h : insert_raw false store source t1 payload = .ok (b, s1)) :
    insert_raw false s1 source t2 payload = .ok (false, s1) := by
  simp only [insert_raw, Bool.false_eq_true, if_false] at h ⊢
  split at h
  · rename_i hany
    injection h with h1
    injection h1 with hb hs
    subst hs
    rw [if_pos hany]
  · rename_i hany
    injection h with h1
    injection h1 with hb hs
    subst hs
    rw [if_pos (by simp [List.any_append])]

/-- The record loop preserves the uniqueness invariant of the store. -/
theorem procRecords_hashUnique (limit : Nat) : ∀ (evs : List RecEvent) (st : RState),
    hashUnique st.store → hashUnique (procRecords limit evs st).store := by
  intro evs
  induction evs with
  | nil => intro st h; exact h
  | cons ev rest ih =>
    intro st h
    simp only [procRecords]
    split
    · exact ih _ h
    · cases hins : insert_raw ev.sinkFault { st with requested := st.requested + 1 }.store
        "openfoodfacts" { st with requested := st.requested + 1 }.ticks ev.payload with
      | error e => exact ih _ h
      | ok pr =>
        obtain ⟨ok, store1⟩ := pr
        have hu1 : hashUnique store1 := insert_raw_hashUnique hins h
        cases ok with
        | true =>
          simp only [eq_self_iff_true, if_true]
          split
          · exact hu1
          · exact ih _ hu1
        | false =>
          simp only [Bool.false_eq_true, if_false]
          split
          · exact hu1
          · exact ih _ hu1

/-! ### Helper lemmas about the page loop -/

/-- When the loop guard is false the loop is the identity, whatever the
fuel. -/
theorem loopFuel_stop (a : Args) (script : Nat → FetchOutcome) (fuel : Nat) (st : RState)
    (h : ¬(st.inserted < a.limit ∧ st.page ≤ a.max_pages)) :
    loopFuel a script fuel st = st := by
  cases fuel with
  | zero => rfl
  | succ n => simp only [loopFuel, if_neg h]

/-- The result of the loop does not depend on the fuel once the fuel covers
the remaining page budget: the loop genuinely terminates within the cap. -/
theorem loopFuel_fuel_free (a : Args) (script : Nat → FetchOutcome) : ∀ (f g : Nat) (st : RState),
    a.max_pages + 1 ≤ st.page + f → a.max_pages + 1 ≤ st.page + g →
    loopFuel a script f st = loopFuel a script g st := by
  intro f
  induction f with
  | zero =>
    intro g st hf _
    have hstop : ¬(st.inserted < a.limit ∧ st.page ≤ a.max_pages) := by omega
    rw [loopFuel_stop a script 0 st hstop, loopFuel_stop a script g st hstop]
  | succ f ih =>
    intro g st hf hg
    by_cases hguard : st.inserted < a.limit ∧ st.page ≤ a.max_pages
    · obtain ⟨g1, rfl⟩ : ∃ g1, g = g1 + 1 := ⟨g - 1, by omega⟩
      simp only [loopFuel, if_pos hguard]
      cases script st.page with
      | fail => refine ih g1 _ ?_ ?_ <;> (dsimp only; omega)
      | ok records =>
        by_cases hrec : records.isEmpty = true
        · simp only [if_pos hrec]
        · simp only [if_neg hrec]
          have hpage : (procRecords a.limit records
              { st with fetchedPages := st.fetchedPages ++ [st.page] }).page = st.page :=
            (procRecords_frame a.limit records _).2.1
          refine ih g1 _ ?_ ?_ <;> (dsimp only; omega)
    · rw [loopFuel_stop a script (f + 1) st hguard, loopFuel_stop a script (g) st hguard]

/-- The loop never pushes `inserted` beyond the limit. -/
theorem loopFuel_le_limit (a : Args) (script : Nat → FetchOutcome) : ∀ (fuel : Nat) (st : RState),
    st.inserted ≤ a.limit → (loopFuel a script fuel st).inserted ≤ a.limit := by
  intro fuel
  induction fuel with
  | zero => intro st h; exact h
  | succ f ih =>
    intro st h
    by_cases hguard : st.inserted < a.limit ∧ st.page ≤ a.max_pages
    · simp only [loopFuel, if_pos hguard]
      cases script st.page with
      | fail => exact ih _ h
      | ok records =>
        by_cases hrec : records.isEmpty = true
        · simp only [if_pos hrec]
          exact h
        · simp only [if_neg hrec]
          exact ih _ (procRecords_le_limit a.limit records _ hguard.1)
    · rw [loopFuel_stop a script (f + 1) st hguard]; exact h

/-- Every page cursor the loop fetches stays within the safety cap. -/
theorem loopFuel_fetched_bound (a : Args) (script : Nat → FetchOutcome) :
    ∀ (fuel : Nat) (st : RState),
    (∀ q ∈ st.fetchedPages, q ≤ a.max_pages) →
    ∀ q ∈ (loopFuel a script fuel st).fetchedPages, q ≤ a.max_pages := by
  intro fuel
  induction fuel with
  | zero => intro st h; exact h
  | succ f ih =>
    intro st h
    by_cases hguard : st.inserted < a.limit ∧ st.page ≤ a.max_pages
    · have h1 : ∀ q ∈ st.fetchedPages ++ [st.page], q ≤ a.max_pages := by
        intro q hq
        rcases List.mem_append.mp hq with hq | hq
        · exact h q hq
        · rw [List.mem_singleton] at hq
          omega
      simp only [loopFuel, if_pos hguard]
      cases script st.page with
      | fail => exact ih _ h1
      | ok records =>
        by_cases hrec : records.isEmpty = true
        · simp only [if_pos hrec]
          exact h1
        · simp only [if_neg hrec]
          have hfp : (procRecords a.limit records
              { st with fetchedPages := st.fetchedPages ++ [st.page] }).fetchedPages =
              st.fetchedPages ++ [st.page] :=
            (procRecords_frame a.limit records _).2.2
          refine ih _ ?_
          intro q hq
          refine h1 q ?_
          rw [← hfp]
          exact hq
    · rw [loopFuel_stop a script (f + 1) st hguard]
      exact h

/-- The loop performs at most one fetch per page cursor under the cap, so at
most `max_pages` fetches happen in a run started at page 1. -/
theorem loopFuel_fetched_length (a : Args) (script : Nat → FetchOutcome) :
    ∀ (fuel : Nat) (st : RState),
    (loopFuel a script fuel st).fetchedPages.length ≤
      st.fetchedPages.length + (a.max_pages + 1 - st.page) := by
  intro fuel
  induction fuel with
  | zero => intro st; simp only [loopFuel]; omega
  | succ f ih =>
    intro st
    by_cases hguard : st.inserted < a.limit ∧ st.page ≤ a.max_pages
    · obtain ⟨hg1, hg2⟩ := hguard
      simp only [loopFuel, if_pos (And.intro hg1 hg2)]
      cases script st.page with
      | fail =>
        have h2 := ih { st with fetchedPages := st.fetchedPages ++ [st.page], failed_pages := st.failed_pages + 1, page := st.page + 1 }
        dsimp only at h2 ⊢
        simp only [List.length_append, List.length_singleton] at h2
        omega
      | ok records =>
        by_cases hrec : records.isEmpty = true
        · simp only [if_pos hrec, List.length_append, List.length_singleton]
          omega
        · simp only [if_neg hrec]
          have hfp : (procRecords a.limit records
              { st with fetchedPages := st.fetchedPages ++ [st.page] }).fetchedPages =
              st.fetchedPages ++ [st.page] :=
            (procRecords_frame a.limit records _).2.2
          have hpage : (procRecords a.limit records
              { st with fetchedPages := st.fetchedPages ++ [st.page] }).page = st.page :=
            (procRecords_frame a.limit records _).2.1
          have hlen : (procRecords a.limit records
              { st with fetchedPages := st.fetchedPages ++ [st.page] }).fetchedPages.length =
              st.fetchedPages.length + 1 := by
            rw [hfp]
            simp
          have h2 := ih { procRecords a.limit records
              { st with fetchedPages := st.fetchedPages ++ [st.page] } with
            page := (procRecords a.limit records
              { st with fetchedPages := st.fetchedPages ++ [st.page] }).page + 1 }
          dsimp only at h2
          omega
    · rw [loopFuel_stop a script (f + 1) st hguard]
      omega

/-- Counter bookkeeping across the whole loop: the four counters only grow
and `inserted + duplicates` never grows faster than `requested`. -/
theorem loopFuel_counters (a : Args) (script : Nat → FetchOutcome) :
    ∀ (fuel : Nat) (st : RState),
    st.inserted ≤ (loopFuel a script fuel st).inserted ∧
    st.duplicates ≤ (loopFuel a script fuel st).duplicates ∧
    st.requested ≤ (loopFuel a script fuel st).requested ∧
    st.failed_pages ≤ (loopFuel a script fuel st).failed_pages ∧
    (loopFuel a script fuel st).inserted + (loopFuel a script fuel st).duplicates +
        st.requested ≤
      st.inserted + st.duplicates + (loopFuel a script fuel st).requested := by
  intro fuel
  induction fuel with
  | zero => intro st; simp only [loopFuel]; omega
  | succ f ih =>
    intro st
    by_cases hguard : st.inserted < a.limit ∧ st.page ≤ a.max_pages
    · simp only [loopFuel, if_pos hguard]
      cases script st.page with
      | fail =>
        have h2 := ih { st with fetchedPages := st.fetchedPages ++ [st.page], failed_pages := st.failed_pages + 1, page := st.page + 1 }
        dsimp only at h2 ⊢
        omega
      | ok records =>
        by_cases hrec : records.isEmpty = true
        · simp only [if_pos hrec]
          omega
        · simp only [if_neg hrec]
          have hpr := procRecords_counters a.limit records
            { st with fetchedPages := st.fetchedPages ++ [st.page] }
          dsimp only at hpr
          generalize hgen : procRecords a.limit records
            { st with fetchedPages := st.fetchedPages ++ [st.page] } = s2 at hpr ⊢
          have hfr : s2.failed_pages = st.failed_pages := by
            rw [← hgen]
            exact (procRecords_frame a.limit records _).1
          have h2 := ih { s2 with page := s2.page + 1 }
          dsimp only at h2
          omega
    · rw [loopFuel_stop a script (f + 1) st hguard]
      omega

/-- The loop preserves the uniqueness invariant of the store. -/
theorem loopFuel_hashUnique (a : Args) (script : Nat → FetchOutcome) :
    ∀ (fuel : Nat) (st : RState),
    hashUnique st.store → hashUnique (loopFuel a script fuel st).store := by
  intro fuel
  induction fuel with
  | zero => intro st h; exact h
  | succ f ih =>
    intro st h
    by_cases hguard : st.inserted < a.limit ∧ st.page ≤ a.max_pages
    · simp only [loopFuel, if_pos hguard]
      cases script st.page with
      | fail => exact ih _ h
      | ok records =>
        by_cases hrec : records.isEmpty = true
        · simp only [if_pos hrec]
          exact h
        · simp only [if_neg hrec]
          exact ih _ (procRecords_hashUnique a.limit records _ h)
    · rw [loopFuel_stop a script (f + 1) st hguard]
      exact h

/-! ### Example data used by witnesses and concrete runs -/

/-- A distinct well-formed record for the concrete runs. -/
def mkRec (i : Int) : RecEvent := ⟨.obj (.cons "code" (.num i) .nil), false⟩

/-- A first page of ten distinct records. -/
def exPage : List RecEvent :=
  [mkRec 0, mkRec 1, mkRec 2, mkRec 3, mkRec 4, mkRec 5, mkRec 6, mkRec 7, mkRec 8, mkRec 9]

/-- A source whose first page has ten distinct records and whose later pages
are empty. -/
def exScript3 : Nat → FetchOutcome := fun p => if p = 1 then .ok exPage else .ok []

/-- A sample payload. -/
def exPay : Json := .obj (.cons "code" (.num 1) .nil)

/-- The store holding exactly the sample payload. -/
def exStore1 : List StoredDoc := [⟨"openfoodfacts", 0, fingerprint exPay, exPay⟩]

/-- A run state over `exStore1`. -/
def exSt : RState := ⟨0, 0, 0, 0, 1, 3, exStore1, []⟩

/-- An object payload with keys in one order. -/
def exP2 : Json := .obj (.cons "a" (.num 1) (.cons "b" (.num 2) .nil))

/-- The same payload with its keys swapped. -/
def exQ2 : Json := .obj (.cons "b" (.num 2) (.cons "a" (.num 1) .nil))

/-- A 201 response carrying a well-formed products list. -/
def exResp201 : Response := ⟨201, "Created", some (.obj (.cons "products" (.arr .nil) .nil))⟩

/-- A 200 response carrying a well-formed products list. -/
def exResp200 : Response := ⟨200, "", some (.obj (.cons "products" (.arr .nil) .nil))⟩

/-- From the store uniqueness invariant: at most one stored document carries
any given fingerprint. -/
theorem hashUnique_filter_le_one : ∀ {store : List StoredDoc}, hashUnique store →
    ∀ hsh : String, (store.filter (fun d => d.raw_hash = hsh)).length ≤ 1 := by
  intro store
  induction store with
  | nil => intro _ hsh; simp
  | cons d ds ih =>
    intro hu hsh
    simp only [hashUnique, List.map_cons, List.nodup_cons] at hu
    obtain ⟨hni, hnd⟩ := hu
    simp only [List.filter]
    cases hmatch : (decide (d.raw_hash = hsh)) with
    | false => exact ih hnd hsh
    | true =>
      rw [decide_eq_true_eq] at hmatch
      have hempty : ds.filter (fun d2 => decide (d2.raw_hash = hsh)) = [] := by
        rw [List.filter_eq_nil_iff]
        intro x hx
        simp only [decide_eq_true_eq]
        intro hxe
        exact hni (List.mem_map.mpr ⟨x, hx, by rw [hxe, hmatch]⟩)
      simp [hempty]

/-! ### The claims -/

/-- C2: for every payload, the fingerprint computed twice is identical, and
for well-formed payloads the fingerprint is invariant under reordering of
object keys at any nesting level (whitespace never reaches the fingerprint:
payloads are structured values and `canonical_json` reserializes them with
fixed separators). -/
theorem fingerprint_deterministic_canonical (p q : Json) :
    fingerprint p = fingerprint p ∧
    (wfKeys p = true → KeyPerm p q → fingerprint p = fingerprint q) :=
  ⟨rfl, fun hw hk => congrArg sha256_hex (canon_keyPerm p hk hw)⟩

/-- Witness for C2 at a two-key object and its key-swapped form. -/
theorem fingerprint_deterministic_canonical_witness :
    wfKeys exP2 = true ∧ fingerprint exP2 = fingerprint exQ2 := by
  refine ⟨by decide, (fingerprint_deterministic_canonical exP2 exQ2).2 (by decide) ?_⟩
  exact KeyPerm.obj
    (KeyPermObj.cons "a" (KeyPerm.num 1) (KeyPermObj.cons "b" (KeyPerm.num 2) KeyPermObj.nil))
    (List.Perm.swap ("b", Json.num 2) ("a", Json.num 1) [])

/-- C6 counterexample: a 2xx response (201) with a well-formed products list
still makes `off_search` raise, because the source checks `status != 200`,
not "non-2xx". -/
theorem off_search_counterexample_2xx :
    (200 ≤ exResp201.status ∧ exResp201.status < 300) ∧
    getProducts exResp201.body = some [] ∧
    off_search exResp201 = .error "OFF HTTP 201: Created" :=
  ⟨by decide, rfl, rfl⟩

/-- C6 amended: `off_search` fails exactly when the response status is not
200 — carrying the status code and the first 200 characters of the body — or
when the body lacks a list-typed `products` field; otherwise it returns that
list. -/
theorem off_search_characterization (r : Response) :
    (r.status ≠ 200 →
      off_search r = .error ("OFF HTTP " ++ toString r.status ++ ": " ++ excerpt r.text)) ∧
    (r.status = 200 → ∀ xs, getProducts r.body = some xs → off_search r = .ok xs) ∧
    (r.status = 200 → getProducts r.body = none →
      off_search r = .error "OFF response missing \x27products\x27 list") := by
  refine ⟨fun hne => ?_, fun he xs hp => ?_, fun he hp => ?_⟩
  · simp only [off_search, if_pos hne]
  · simp only [off_search, he, hp]
    simp
  · simp only [off_search, he, hp]
    simp

/-- Witness for C6 at a failing and a succeeding response. -/
theorem off_search_characterization_witness :
    off_search exResp201 = .error ("OFF HTTP " ++ toString exResp201.status ++ ": " ++
      excerpt exResp201.text) ∧
    off_search exResp200 = .ok [] :=
  ⟨(off_search_characterization exResp201).1 (by decide),
   (off_search_characterization exResp200).2.1 rfl [] rfl⟩

/-- C1: idempotent ingestion. After a completed `insert_raw` of a payload, a
second `insert_raw` of the same payload reports a duplicate (returns false)
and leaves the store unchanged; a run started on a store satisfying the
uniqueness invariant preserves it, so at most one stored document ever
carries a given fingerprint; and the record step on a payload whose
fingerprint is already stored increments `duplicates`, never `inserted`,
and does not touch the store. -/
theorem idempotent_ingestion (store : List StoredDoc) (source : String) (t1 t2 : Nat)
    (payload : Json) (b : Bool) (s1 : List StoredDoc) (a : Args)
    (script : Nat → FetchOutcome) (store0 : List StoredDoc) (limit : Nat) (ev : RecEvent)
    (rest : List RecEvent) (st : RState)
    (h1 : insert_raw false store source t1 payload = .ok (b, s1))
    (h2 : hashUnique store0)
    (h3 : ev.payload.isObj = true)
    (h4 : ev.sinkFault = false)
    (h5 : st.store.any (fun d => d.raw_hash = fingerprint ev.payload) = true) :
    insert_raw false s1 source t2 payload = .ok (false, s1) ∧
    hashUnique (runCollector a script store0).store ∧
    (∀ hsh : String,
      ((runCollector a script store0).store.filter (fun d => d.raw_hash = hsh)).length ≤ 1) ∧
    procRecords limit (ev :: rest) st =
      (if limit ≤ st.inserted then
        { st with requested := st.requested + 1, duplicates := st.duplicates + 1, ticks := st.ticks + 1 }
      else procRecords limit rest
        { st with requested := st.requested + 1, duplicates := st.duplicates + 1, ticks := st.ticks + 1 }) := by
  refine ⟨insert_raw_after store source t1 t2 payload h1,
    loopFuel_hashUnique a script _ _ h2,
    fun hsh => hashUnique_filter_le_one (loopFuel_hashUnique a script _ _ h2) hsh, ?_⟩
  simp only [procRecords, h3, h4, Bool.true_eq_false, if_false]
  simp only [fingerprint] at h5
  simp only [insert_raw, Bool.false_eq_true, if_false]
  rw [if_pos h5]
  rfl

set_option maxRecDepth 100000 in
/-- Witness for C1: inserting a sample payload into the empty store and
re-inserting it. -/
theorem idempotent_ingestion_witness :
    insert_raw false exStore1 "openfoodfacts" 7 exPay = .ok (false, exStore1) :=
  (idempotent_ingestion [] "openfoodfacts" 0 7 exPay true exStore1 ⟨1, 1⟩
    (fun _ => .ok []) [] 5 ⟨exPay, false⟩ [] exSt rfl (by simp [hashUnique]) rfl rfl
    (by rfl)).1

set_option maxRecDepth 1000000 in
/-- C3: the run never inserts past the configured target, and in the
concrete run with target 5 against a first page of 10 distinct records the
loop stops mid-page: exactly 5 records are processed, 5 are inserted, and
only page 1 is ever fetched. -/
theorem target_termination_mid_page :
    (∀ (a : Args) (script : Nat → FetchOutcome) (store0 : List StoredDoc),
      (runCollector a script store0).inserted ≤ a.limit) ∧
    (runCollector ⟨5, 50⟩ exScript3 []).inserted = 5 ∧
    (runCollector ⟨5, 50⟩ exScript3 []).requested = 5 ∧
    (runCollector ⟨5, 50⟩ exScript3 []).fetchedPages = [1] :=
  ⟨fun a script store0 => loopFuel_le_limit a script _ _ (Nat.zero_le _),
   by decide, by decide, by decide⟩

/-- C4: an iteration whose page fetch fails increments exactly
`failed_pages`, advances the page cursor, leaves `inserted`, `duplicates`
and `requested` untouched, and continues the loop on the next page. -/
theorem page_failure_isolation (a : Args) (script : Nat → FetchOutcome) (fuel : Nat)
    (st : RState) (hg : st.inserted < a.limit) (hp : st.page ≤ a.max_pages)
    (hf : script st.page = .fail) :
    loopFuel a script (fuel + 1) st =
      loopFuel a script fuel
        { st with failed_pages := st.failed_pages + 1, page := st.page + 1, fetchedPages := st.fetchedPages ++ [st.page] } := by
  simp only [loopFuel, if_pos (And.intro hg hp), hf]

/-- Witness for C4 at the initial state of a run whose first fetch fails. -/
theorem page_failure_isolation_witness :
    loopFuel ⟨1, 3⟩ (fun _ => .fail) 1 (initState []) =
      loopFuel ⟨1, 3⟩ (fun _ => .fail) 0
        { initState [] with failed_pages := 1, page := 2, fetchedPages := [1] } :=
  page_failure_isolation ⟨1, 3⟩ (fun _ => .fail) 0 (initState []) (by decide) (by decide) rfl

/-- C5: a record whose insert raises a store-level error other than a
duplicate-key rejection is skipped: `requested` was counted, neither
`inserted` nor `duplicates` moves, the store is untouched, and the loop
continues with the remaining records. -/
theorem sink_error_skips_record (limit : Nat) (ev : RecEvent) (rest : List RecEvent)
    (st : RState) (hobj : ev.payload.isObj = true) (hf : ev.sinkFault = true) :
    procRecords limit (ev :: rest) st =
      procRecords limit rest { st with requested := st.requested + 1, ticks := st.ticks + 1 } := by
  simp only [procRecords, hobj, Bool.true_eq_false, if_false, hf]
  simp only [insert_raw, eq_self_iff_true, if_true]

/-- Witness for C5 at a faulting record over the initial state. -/
theorem sink_error_skips_record_witness :
    procRecords 3 [⟨Json.obj JObj.nil, true⟩] (initState []) =
      procRecords 3 [] { initState [] with requested := 1, ticks := 1 } :=
  sink_error_skips_record 3 ⟨Json.obj JObj.nil, true⟩ [] (initState []) rfl rfl

/-- C7: an iteration whose fetch returns an empty record list ends the run
at once: no counter changes, the page cursor stays, and no further page is
fetched whatever fuel remains. -/
theorem empty_page_terminates (a : Args) (script : Nat → FetchOutcome) (fuel : Nat)
    (st : RState) (hg : st.inserted < a.limit) (hp : st.page ≤ a.max_pages)
    (he : script st.page = .ok []) :
    loopFuel a script (fuel + 1) st = { st with fetchedPages := st.fetchedPages ++ [st.page] } := by
  simp only [loopFuel, if_pos (And.intro hg hp), he, List.isEmpty_nil, if_true]

/-- Witness for C7 at the initial state of a run whose first page is
empty. -/
theorem empty_page_terminates_witness :
    loopFuel ⟨2, 9⟩ (fun _ => .ok []) 10 (initState []) =
      { initState [] with fetchedPages := [1] } :=
  empty_page_terminates ⟨2, 9⟩ (fun _ => .ok []) 9 (initState []) (by decide) (by decide) rfl

/-- C8: the loop result is unchanged by any extra fuel beyond the cap (the
loop genuinely terminates within the page budget), at most `max_pages`
fetches are performed, every fetched page cursor is at most `max_pages`, and
a run that ends short of the target exits with code 1 (the exhausted
outcome). -/
theorem bounded_termination (a : Args) (script : Nat → FetchOutcome) (store0 : List StoredDoc)
    (extra : Nat) (ua : String) :
    loopFuel a script (a.max_pages + 1 + extra) (initState store0) = runCollector a script store0 ∧
    (runCollector a script store0).fetchedPages.length ≤ a.max_pages ∧
    (∀ q ∈ (runCollector a script store0).fetchedPages, q ≤ a.max_pages) ∧
    ((pyStrip ua).data.isEmpty = false → (runCollector a script store0).inserted < a.limit →
      collectorMain ua a script store0 = (1, runCollector a script store0)) := by
  refine ⟨?_, ?_, ?_, fun hua hshort => ?_⟩
  · exact loopFuel_fuel_free a script (a.max_pages + 1 + extra) (a.max_pages + 1)
      (initState store0) (by simp only [initState]; omega) (by simp only [initState]; omega)
  · have h2 := loopFuel_fetched_length a script (a.max_pages + 1) (initState store0)
    simp only [initState, List.length_nil] at h2
    simp only [runCollector, initState]
    omega
  · intro q hq
    refine loopFuel_fetched_bound a script (a.max_pages + 1) (initState store0) ?_ q hq
    intro q2 hq2
    simp only [initState] at hq2
    exact absurd hq2 (List.not_mem_nil q2)
  · have hcond : ¬((pyStrip ua).data.isEmpty = true) := by simp [hua]
    simp only [collectorMain, if_neg hcond]
    rw [if_neg (by omega)]

set_option maxRecDepth 100000 in
/-- Witness for C8: a short-of-target run over two empty-page-capped pages
exits with code 1. -/
theorem bounded_termination_witness :
    collectorMain "agent" ⟨1000, 2⟩ (fun _ => .ok []) [] =
      (1, runCollector ⟨1000, 2⟩ (fun _ => .ok []) []) :=
  (bounded_termination ⟨1000, 2⟩ (fun _ => .ok []) [] 5 "agent").2.2.2 (by decide) (by decide)

/-- C9: the process exits 2 exactly when the stripped user agent is empty —
in which case no page is ever fetched — exits 0 exactly when it ran and the
final `inserted` reached the target, and exits 1 exactly when it ran and
ended short of the target. -/
theorem exit_code_contract (ua : String) (a : Args) (script : Nat → FetchOutcome)
    (store0 : List StoredDoc) :
    ((pyStrip ua).data.isEmpty = true →
      collectorMain ua a script store0 = (2, initState store0) ∧
      (initState store0).fetchedPages = []) ∧
    ((collectorMain ua a script store0).1 = 2 ↔ (pyStrip ua).data.isEmpty = true) ∧
    ((collectorMain ua a script store0).1 = 0 ↔
      (pyStrip ua).data.isEmpty = false ∧ a.limit ≤ (runCollector a script store0).inserted) ∧
    ((collectorMain ua a script store0).1 = 1 ↔
      (pyStrip ua).data.isEmpty = false ∧ (runCollector a script store0).inserted < a.limit) := by
  by_cases hua : (pyStrip ua).data.isEmpty = true
  · simp only [collectorMain, if_pos hua]
    exact ⟨fun _ => ⟨by simp, by simp [initState]⟩, by simp [hua], by simp [hua], by simp [hua]⟩
  · have hf : (pyStrip ua).data.isEmpty = false := by simpa using hua
    simp only [collectorMain, if_neg hua]
    by_cases hr : a.limit ≤ (runCollector a script store0).inserted
    · have hnr : ¬(runCollector a script store0).inserted < a.limit := by omega
      simp only [if_pos hr]
      exact ⟨fun hcontra => absurd hcontra (by simp [hf]), by simp [hf], by simp [hf, hr],
        by simp [hf, hnr]⟩
    · have hlt : (runCollector a script store0).inserted < a.limit := by omega
      simp only [if_neg hr]
      exact ⟨fun hcontra => absurd hcontra (by simp [hf]), by simp [hf], by simp [hf, hr],
        by simp [hf, hlt]⟩

set_option maxRecDepth 100000 in
/-- Witness for C9: a missing user agent exits 2 with nothing fetched; a
trivially satisfied target exits 0. -/
theorem exit_code_contract_witness :
    collectorMain "" ⟨3, 5⟩ (fun _ => .ok []) [] = (2, initState []) ∧
    (collectorMain " ua " ⟨0, 5⟩ (fun _ => .ok []) []).1 = 0 :=
  ⟨((exit_code_contract "" ⟨3, 5⟩ (fun _ => .ok []) []).1 rfl).1,
   (exit_code_contract " ua " ⟨0, 5⟩ (fun _ => .ok []) []).2.2.1.mpr ⟨by decide, by decide⟩⟩

/-- C10: counters are natural numbers (hence non-negative), never decrease
across the loop, satisfy `inserted + duplicates ≤ requested` at the end of
every run, and one record step increments `requested` by exactly one and at
most one of `inserted` and `duplicates`. -/
theorem counter_accounting (a : Args) (script : Nat → FetchOutcome) (store0 : List StoredDoc)
    (limit : Nat) (ev : RecEvent) (st : RState) :
    (runCollector a script store0).inserted + (runCollector a script store0).duplicates ≤
      (runCollector a script store0).requested ∧
    (∀ (fuel : Nat) (stt : RState),
      stt.inserted ≤ (loopFuel a script fuel stt).inserted ∧
      stt.duplicates ≤ (loopFuel a script fuel stt).duplicates ∧
      stt.requested ≤ (loopFuel a script fuel stt).requested ∧
      stt.failed_pages ≤ (loopFuel a script fuel stt).failed_pages) ∧
    ((procRecords limit [ev] st).requested = st.requested + 1 ∧
      ((procRecords limit [ev] st).inserted = st.inserted + 1 ∧
          (procRecords limit [ev] st).duplicates = st.duplicates ∨
        (procRecords limit [ev] st).duplicates = st.duplicates + 1 ∧
          (procRecords limit [ev] st).inserted = st.inserted ∨
        (procRecords limit [ev] st).inserted = st.inserted ∧
          (procRecords limit [ev] st).duplicates = st.duplicates)) := by
  refine ⟨?_, fun fuel stt => ?_, ?_⟩
  · have h := loopFuel_counters a script (a.max_pages + 1) (initState store0)
    simp only [initState] at h
    simp only [runCollector, initState]
    omega
  · have h := loopFuel_counters a script fuel stt
    exact ⟨h.1, h.2.1, h.2.2.1, h.2.2.2.1⟩
  · simp only [procRecords]
    split
    · dsimp only
      omega
    · cases hins : insert_raw ev.sinkFault { st with requested := st.requested + 1 }.store
        "openfoodfacts" { st with requested := st.requested + 1 }.ticks ev.payload with
      | error e =>
        dsimp only
        omega
      | ok pr =>
        obtain ⟨ok, store1⟩ := pr
        cases ok with
        | true =>
          simp only [eq_self_iff_true, if_true]
          split
          · try dsimp only
            omega
          · simp only [procRecords]
            try dsimp only
            tauto
        | false =>
          simp only [Bool.false_eq_true, if_false]
          split
          · try dsimp only
            omega
          · simp only [procRecords]
            try dsimp only
            tauto

end Collector
